import Mathlib

/-!
# Verification of the lunar-boot early-boot core

A shallow embedding of the FDT (flattened devicetree) reader / query engine
(`src/fdt.rs`), the alignment macro (`src/align.rs`) and the boot bump arena
(`src/mem/start.rs`) of the lunar-boot kernel, with theorems settling the
claims of the specification against the code.

Modelling conventions:
* Machine integers (`usize`, `u64`, `u32`, `u8`) are `Nat` with an explicit
  `% 2 ^ w` wherever the Rust arithmetic can overflow.  Arithmetic overflow is
  modelled with the wrapping semantics of release builds (the kernel is built
  without overflow checks).
* A Rust panic (out-of-bounds slice indexing, `assert!`, explicit `panic!`,
  `expect`) is the `.error ()` value of the `Exec` monad below; `Option`
  results of the Rust code stay `Option` inside `Exec`.
* Byte buffers are `List Nat` (each entry a byte value); Rust `&str` values
  are represented by their UTF-8 byte sequences (`List Nat`), since Rust string
  equality is byte equality.
-/

/-- Computation that may end in a Rust panic (`.error ()`). -/
abbrev Exec (α : Type) : Type := Except Unit α

/-! ## `src/align.rs` — the `align_up!` macro

```
let mask = $how - 1;
assert!(($how & mask) == 0);
($what + mask) & !mask
```
on `usize` operands; `how - 1` and `what + mask` wrap modulo `2 ^ 64`, `!mask`
is complement within 64 bits, and a failed `assert!` is a panic. -/
def alignUp64 (what how : Nat) : Exec Nat :=
  let mask := (how + (2 ^ 64 - 1)) % 2 ^ 64
  if how &&& mask = 0 then
    .ok ((((what % 2 ^ 64) + mask) % 2 ^ 64) &&& ((2 ^ 64 - 1) ^^^ mask))
  else
    .error ()

/-- The mathematical rounding-up of `c` to a multiple of `al` (for `al ≥ 1`):
`al * ((c + (al - 1)) / al)` is the smallest multiple of `al` that is `≥ c`. -/
def alignedNat (c al : Nat) : Nat :=
  al * ((c + (al - 1)) / al)

/-- Clearing the low `k` bits of `x` (an `and` with the complement of
`2 ^ k - 1` within 64 bits) is the same as `(x >>> k) <<< k`. -/
theorem land_comp_mask_shift (x k : Nat) (hx : x < 2 ^ 64) (hk : k ≤ 64) :
    x &&& ((2 ^ 64 - 1) ^^^ (2 ^ k - 1)) = (x >>> k) <<< k := by
  apply Nat.eq_of_testBit_eq
  intro i
  simp only [Nat.testBit_land, Nat.testBit_xor, Nat.testBit_two_pow_sub_one,
    Nat.testBit_shiftLeft, Nat.testBit_shiftRight]
  by_cases h64 : i < 64
  · by_cases hik : i < k
    · have : ¬ (i ≥ k) := by omega
      simp [hik, h64, this]
    · have h1 : i ≥ k := by omega
      have h2 : k + (i - k) = i := by omega
      simp [hik, h64, h1, h2]
  · have hxi : x.testBit i = false := by
      apply Nat.testBit_lt_two_pow
      exact lt_of_lt_of_le hx (Nat.pow_le_pow_right (by norm_num) (by omega))
    have h1 : ¬ i < k := by omega
    have h2 : i ≥ k := by omega
    have h3 : k + (i - k) = i := by omega
    simp [h64, h1, h2, h3, hxi]

/-- Clearing the low `k` bits of `x < 2 ^ 64` computes `x - x % 2 ^ k`. -/
theorem land_comp_mask (x k : Nat) (hx : x < 2 ^ 64) (hk : k ≤ 64) :
    x &&& ((2 ^ 64 - 1) ^^^ (2 ^ k - 1)) = x - x % 2 ^ k := by
  rw [land_comp_mask_shift x k hx hk, Nat.shiftLeft_eq, Nat.shiftRight_eq_div_pow]
  have key : x / 2 ^ k * 2 ^ k + x % 2 ^ k = x := by
    rw [Nat.mul_comm]
    exact Nat.div_add_mod x (2 ^ k)
  have hml : x % 2 ^ k < 2 ^ k := Nat.mod_lt _ (Nat.pos_pow_of_pos k (by norm_num))
  omega

/-- Evaluation of `align_up!` at a power-of-two alignment, arbitrary cursor
(including the wrap-around zone near `2 ^ 64`). -/
theorem alignUp64_eval (c k : Nat) (hk : k ≤ 63) (hc : c < 2 ^ 64) :
    alignUp64 c (2 ^ k) =
      .ok (((c + (2 ^ k - 1)) % 2 ^ 64) - ((c + (2 ^ k - 1)) % 2 ^ 64) % 2 ^ k) := by
  have hklt : 2 ^ k - 1 < 2 ^ 64 := by
    have : 2 ^ k ≤ 2 ^ 63 := Nat.pow_le_pow_right (by norm_num) hk
    have : (2 : Nat) ^ 63 < 2 ^ 64 := by norm_num
    omega
  have hmask : (2 ^ k + (2 ^ 64 - 1)) % 2 ^ 64 = 2 ^ k - 1 := by
    have hpos : 0 < 2 ^ k := Nat.pos_pow_of_pos k (by norm_num)
    have h1 : 2 ^ k + (2 ^ 64 - 1) = (2 ^ k - 1) + 2 ^ 64 := by omega
    rw [h1, Nat.add_mod_right, Nat.mod_eq_of_lt hklt]
  have hcond : 2 ^ k &&& (2 ^ k - 1) = 0 := by
    rw [Nat.and_pow_two_sub_one_eq_mod, Nat.mod_self]
  unfold alignUp64
  have hX : (c + (2 ^ k - 1)) % 2 ^ 64 < 2 ^ 64 := Nat.mod_lt _ (by norm_num)
  simp only [hmask, hcond, Nat.mod_eq_of_lt hc, land_comp_mask _ k hX (by omega)]
  simp

/-- Evaluation of `align_up!` at a power-of-two alignment when no wrap-around
occurs: the result is exactly the mathematical rounding `alignedNat`. -/
theorem alignUp64_pow2 (c k : Nat) (hk : k ≤ 63) (hn : c + 2 ^ k ≤ 2 ^ 64) :
    alignUp64 c (2 ^ k) = .ok (alignedNat c (2 ^ k)) := by
  have hpos : 0 < 2 ^ k := Nat.pos_pow_of_pos k (by norm_num)
  have hc : c < 2 ^ 64 := by omega
  rw [alignUp64_eval c k hk hc]
  have hlt : c + (2 ^ k - 1) < 2 ^ 64 := by omega
  have key := Nat.div_add_mod (c + (2 ^ k - 1)) (2 ^ k)
  have hml : (c + (2 ^ k - 1)) % 2 ^ k < 2 ^ k := Nat.mod_lt _ hpos
  have hval : c + (2 ^ k - 1) - (c + (2 ^ k - 1)) % 2 ^ k = alignedNat c (2 ^ k) := by
    unfold alignedNat
    omega
  rw [Nat.mod_eq_of_lt hlt, hval]

/-- Basic bounds for the mathematical rounding: for `al ≥ 1`,
`alignedNat c al` is a multiple of `al` within `[c, c + al)`. -/
theorem alignedNat_bounds (c al : Nat) (hal : 0 < al) :
    c ≤ alignedNat c al ∧ alignedNat c al < c + al ∧ al ∣ alignedNat c al := by
  have key := Nat.div_add_mod (c + (al - 1)) al
  have hml : (c + (al - 1)) % al < al := Nat.mod_lt _ hal
  refine ⟨?_, ?_, Dvd.intro _ rfl⟩ <;> unfold alignedNat <;> omega

/-- A positive number whose `and` with its predecessor is zero is a power of
two: soundness of the `n & (n - 1) == 0` test performed by the `align_up!`
assertion. -/
theorem pow2_of_land_pred : ∀ n : Nat, 0 < n → n &&& (n - 1) = 0 → ∃ k, n = 2 ^ k := by
  intro n
  induction n using Nat.strong_induction_on with
  | _ n ih =>
    intro hpos h
    rcases Nat.lt_or_ge n 2 with h2 | h2
    · exact ⟨0, by omega⟩
    · by_cases hodd : n % 2 = 1
      · -- an odd `n ≥ 3` keeps every bit above bit 0 when 1 is subtracted,
        -- and has a set bit above bit 0, so `n &&& (n - 1) ≠ 0`
        exfalso
        have hm : n / 2 ≠ 0 := by omega
        obtain ⟨j, hj, _⟩ := Nat.exists_most_significant_bit hm
        have e1 : n.testBit (j + 1) = true := by
          rw [← Nat.testBit_div_two]
          exact hj
        have e2 : (n - 1).testBit (j + 1) = true := by
          rw [← Nat.testBit_div_two]
          have hdiv : (n - 1) / 2 = n / 2 := by omega
          rw [hdiv]
          exact hj
        have hb := congrArg (fun z : Nat => z.testBit (j + 1)) h
        simp only [Nat.testBit_land, e1, e2, Nat.zero_testBit, Bool.and_self] at hb
        exact Bool.noConfusion hb
      · -- an even `n` satisfies the test exactly when `n / 2` does
        have hpos2 : 0 < n / 2 := by omega
        have hand : n / 2 &&& (n / 2 - 1) = 0 := by
          apply Nat.zero_of_testBit_eq_false
          intro i
          have hb := congrArg (fun z : Nat => z.testBit (i + 1)) h
          simp only [Nat.testBit_land, Nat.zero_testBit] at hb
          rw [Nat.testBit_land]
          have r1 : (n / 2).testBit i = n.testBit (i + 1) := Nat.testBit_div_two n i
          have r2 : (n / 2 - 1).testBit i = (n - 1).testBit (i + 1) := by
            have hdiv : (n - 1) / 2 = n / 2 - 1 := by omega
            rw [← Nat.testBit_div_two, hdiv]
          rw [r1, r2]
          exact hb
        obtain ⟨k, hk⟩ := ih (n / 2) (by omega) hpos2 hand
        refine ⟨k + 1, ?_⟩
        have hp : 2 ^ (k + 1) = 2 ^ k * 2 := Nat.pow_succ 2 k
        omega

/-! ## `src/mem/start.rs` — the boot bump arena -/

/-- The bump-allocator state (`struct Arena`); `limit` is the Rust field
`end` (a Lean keyword). -/
structure Arena where
  cursor : Nat
  limit : Nat
deriving DecidableEq

/-- `Token::alloc_slice::<T>(count)` with `al = layout.align()` and
`sz = layout.size()`:

```
let cursor = align::align_up!(arena.cursor, layout.align());
let end = cursor + layout.size();
if end > arena.end { panic!("OOM in start arena"); }
arena.cursor = end;
core::slice::from_raw_parts_mut(cursor as *mut T, count)
```

Returns the byte range `[cursor, end)` of the returned slice together with
the updated arena. -/
def allocSlice (a : Arena) (al sz : Nat) : Exec ((Nat × Nat) × Arena) :=
  match alignUp64 a.cursor al with
  | .error u => .error u
  | .ok cursor =>
    let e := (cursor + sz) % 2 ^ 64
    if a.limit < e then .error ()
    else .ok ((cursor, e), ⟨e, a.limit⟩)

/-- A sequence of `alloc_slice` calls, collecting the returned byte ranges. -/
def allocAll (a : Arena) : List (Nat × Nat) → Exec (List (Nat × Nat) × Arena)
  | [] => .ok ([], a)
  | r :: rs =>
    match allocSlice a r.1 r.2 with
    | .error u => .error u
    | .ok (rg, a1) =>
      match allocAll a1 rs with
      | .error u => .error u
      | .ok (l, a2) => .ok (rg :: l, a2)

/-- `al` is a power of two representable as a Rust alignment. -/
def IsPow2 (n : Nat) : Prop := ∃ k, k ≤ 63 ∧ n = 2 ^ k

/-- Full characterization of one `alloc_slice` call under the no-address-space-
wrap-around side conditions (alignments produced by `Layout` are powers of two;
the arena is a region of real memory, so `limit + al + sz` fits in `usize`). -/
theorem allocSlice_characterization (a : Arena) (al sz : Nat)
    (hp : IsPow2 al) (hc : a.cursor ≤ a.limit) (hn : a.limit + al + sz ≤ 2 ^ 64) :
    (alignedNat a.cursor al + sz ≤ a.limit →
        allocSlice a al sz =
          .ok ((alignedNat a.cursor al, alignedNat a.cursor al + sz),
               ⟨alignedNat a.cursor al + sz, a.limit⟩))
    ∧ (a.limit < alignedNat a.cursor al + sz → allocSlice a al sz = .error ()) := by
  obtain ⟨k, hk, rfl⟩ := hp
  have hpos : 0 < 2 ^ k := Nat.pos_pow_of_pos k (by norm_num)
  have halign : alignUp64 a.cursor (2 ^ k) = .ok (alignedNat a.cursor (2 ^ k)) :=
    alignUp64_pow2 a.cursor k hk (by omega)
  obtain ⟨hge, hlt, _⟩ := alignedNat_bounds a.cursor (2 ^ k) hpos
  have hnw : alignedNat a.cursor (2 ^ k) + sz < 2 ^ 64 := by omega
  constructor
  · intro hle
    unfold allocSlice
    rw [halign]
    simp only [Nat.mod_eq_of_lt hnw]
    rw [if_neg (by omega)]
  · intro hgt
    unfold allocSlice
    rw [halign]
    simp only [Nat.mod_eq_of_lt hnw]
    rw [if_pos (by omega)]

/-- Inversion of a successful `alloc_slice` under the side conditions. -/
theorem allocSlice_ok (a : Arena) (al sz : Nat) (c e : Nat) (a1 : Arena)
    (hp : IsPow2 al) (hc : a.cursor ≤ a.limit) (hn : a.limit + al + sz ≤ 2 ^ 64)
    (h : allocSlice a al sz = .ok ((c, e), a1)) :
    a.cursor ≤ c ∧ c ≤ e ∧ e ≤ a.limit ∧ a1 = ⟨e, a.limit⟩ := by
  obtain ⟨hok, herr⟩ := allocSlice_characterization a al sz hp hc hn
  obtain ⟨k, hk, rfl⟩ := hp
  have hpos : 0 < 2 ^ k := Nat.pos_pow_of_pos k (by norm_num)
  obtain ⟨hge, hlt, _⟩ := alignedNat_bounds a.cursor (2 ^ k) hpos
  by_cases hcase : alignedNat a.cursor (2 ^ k) + sz ≤ a.limit
  · rw [hok hcase] at h
    simp only [Except.ok.injEq, Prod.mk.injEq] at h
    obtain ⟨⟨hc', he'⟩, ha⟩ := h
    subst hc'; subst he'; subst ha
    exact ⟨hge, by omega, by omega, rfl⟩
  · rw [herr (by omega)] at h
    exact absurd h (by simp)

/-- Invariant of a successful sequence of allocations: the limit is unchanged,
the cursor moves monotonically, stays below the limit, every returned range is
well-formed and lies between the initial and the final cursor, and the ranges
are pairwise ordered (hence non-overlapping). -/
theorem allocAll_inv (rs : List (Nat × Nat)) (a : Arena)
    (ranges : List (Nat × Nat)) (a2 : Arena)
    (hc : a.cursor ≤ a.limit)
    (hreq : ∀ r ∈ rs, IsPow2 r.1 ∧ a.limit + r.1 + r.2 ≤ 2 ^ 64)
    (h : allocAll a rs = .ok (ranges, a2)) :
    a2.limit = a.limit ∧ a.cursor ≤ a2.cursor ∧ a2.cursor ≤ a2.limit ∧
    (∀ rg ∈ ranges, a.cursor ≤ rg.1 ∧ rg.1 ≤ rg.2 ∧ rg.2 ≤ a2.cursor) ∧
    List.Pairwise (fun x y : Nat × Nat => x.2 ≤ y.1) ranges := by
  induction rs generalizing a ranges with
  | nil =>
    unfold allocAll at h
    injection h with h1
    injection h1 with hr ha
    subst hr; subst ha
    exact ⟨rfl, le_refl _, hc, by simp, by simp⟩
  | cons r rs ih =>
    unfold allocAll at h
    cases hstep : allocSlice a r.1 r.2 with
    | error u => rw [hstep] at h; exact absurd h (by simp)
    | ok v =>
      obtain ⟨⟨c, e⟩, a1⟩ := v
      rw [hstep] at h
      obtain ⟨hp, hn⟩ := hreq r (by simp)
      obtain ⟨h1, h2, h3, h4⟩ := allocSlice_ok a r.1 r.2 c e a1 hp hc hn hstep
      subst h4
      dsimp only at h
      cases hrest : allocAll ⟨e, a.limit⟩ rs with
      | error u => rw [hrest] at h; exact absurd h (by simp)
      | ok w =>
        obtain ⟨l, a3⟩ := w
        rw [hrest] at h
        simp only [Except.ok.injEq, Prod.mk.injEq] at h
        obtain ⟨hr, ha⟩ := h
        subst ha
        have hreq' : ∀ q ∈ rs, IsPow2 q.1 ∧ (Arena.mk e a.limit).limit + q.1 + q.2 ≤ 2 ^ 64 := by
          intro q hq
          exact hreq q (by simp [hq])
        obtain ⟨i1, i2, i3, i4, i5⟩ := ih ⟨e, a.limit⟩ l h3 hreq' hrest
        subst hr
        refine ⟨i1, by simp at i2 ⊢; omega, i3, ?_, ?_⟩
        · intro rg hrg
          rcases List.mem_cons.mp hrg with hhd | htl
          · subst hhd
            exact ⟨by simpa using h1, by simpa using h2, by simpa using i2⟩
          · obtain ⟨j1, j2, j3⟩ := i4 rg htl
            simp at j1
            exact ⟨by omega, j2, j3⟩
        · refine List.Pairwise.cons ?_ i5
          intro rg hrg
          obtain ⟨j1, j2, j3⟩ := i4 rg hrg
          simp at j1
          omega

/-- Global state of `src/mem/start.rs`: the one-shot `INITIALIZED` flag and
the `ARENA` cell (`None` when uninitialized or reclaimed). -/
structure StartState where
  initialized : Bool
  arena : Option Arena
deriving DecidableEq

/-- `mem::start::init()`: `INITIALIZED.swap(true)` panics on a second call
("Double initialization of start arena"), otherwise the arena over the
linker-provided region `[start, limit)` is published and a token issued. -/
def startInit (s : StartState) (start limit : Nat) : Exec StartState :=
  if s.initialized then .error ()
  else .ok ⟨true, some ⟨start, limit⟩⟩

/-- `Token::drop`: the shared allocator state is discarded (`*ARENA = None`);
the `INITIALIZED` guard is not reset. -/
def tokenDrop (s : StartState) : StartState :=
  ⟨s.initialized, none⟩

/-- `Token::alloc_slice` acting on the global state: the
`expect("Arena no longer accessible")` panics when the arena cell is empty. -/
def tokenAlloc (s : StartState) (al sz : Nat) : Exec ((Nat × Nat) × StartState) :=
  match s.arena with
  | none => .error ()
  | some a =>
    match allocSlice a al sz with
    | .error u => .error u
    | .ok (rg, a1) => .ok (rg, ⟨s.initialized, some a1⟩)

/-- The operations available to token holders (everything except a fresh
`init()` call). -/
inductive ArenaOp where
  | alloc (al sz : Nat)
  | release

/-- Effect of one token operation on the global state (a panicking allocation
leaves the state unchanged). -/
def runOp (s : StartState) : ArenaOp → StartState
  | .alloc al sz =>
    match tokenAlloc s al sz with
    | .error _ => s
    | .ok (_, s1) => s1
  | .release => tokenDrop s

/-- C6: in the `Uninitialized → Active → Reclaimed` state machine,
(1) after the token is released every allocation attempt is fatal,
(2) a second `init()` while initialized is fatal ("double initialization"),
(3) releasing the token discards the arena state, and
(4) from a reclaimed state, no sequence of token operations (without a fresh
`init()`) ever reaches a state with an active arena. -/
theorem arena_lifecycle_c6 :
    (∀ (s : StartState) (al sz : Nat), tokenAlloc (tokenDrop s) al sz = .error ())
    ∧ (∀ (s : StartState) (start limit : Nat), s.initialized = true →
        startInit s start limit = .error ())
    ∧ (∀ s : StartState, (tokenDrop s).arena = none)
    ∧ (∀ (ops : List ArenaOp) (s : StartState), s.arena = none →
        (ops.foldl runOp s).arena = none) := by
  refine ⟨fun s al sz => rfl, ?_, fun s => rfl, ?_⟩
  · intro s start limit h
    simp [startInit, h]
  · intro ops
    induction ops with
    | nil => intro s h; simpa using h
    | cons op ops ih =>
      intro s h
      have hstep : (runOp s op).arena = none := by
        cases op with
        | alloc al sz => simp [runOp, tokenAlloc, h]
        | release => rfl
      simpa using ih (runOp s op) hstep

/-- Witness for `arena_lifecycle_c6` at concrete inputs. -/
theorem arena_lifecycle_c6_witness :
    ((⟨true, none⟩ : StartState).initialized = true ∧
        startInit ⟨true, none⟩ 0 64 = .error ())
    ∧ ((⟨true, none⟩ : StartState).arena = none ∧
        (([ArenaOp.alloc 4 8, ArenaOp.release].foldl runOp ⟨true, none⟩).arena = none)) :=
  ⟨⟨rfl, arena_lifecycle_c6.2.1 ⟨true, none⟩ 0 64 rfl⟩,
   ⟨rfl, arena_lifecycle_c6.2.2.2 [ArenaOp.alloc 4 8, ArenaOp.release] ⟨true, none⟩ rfl⟩⟩

/-- C5: under the physical side conditions (alignments from `Layout` are
powers of two; the reserved region and request sizes do not wrap the address
space), (1) a successful `alloc_slice` moves the cursor monotonically and
keeps `cursor ≤ end`, so the `start ≤ cursor ≤ end` invariant is preserved,
(2) a call whose aligned end would exceed the region bound panics
("OOM in start arena") instead of advancing the cursor or returning a range,
and (3) the ranges returned by any successful sequence of `alloc_slice` calls
are well-formed and pairwise ordered end-before-start, hence non-overlapping. -/
theorem alloc_slice_c5 :
    (∀ (a : Arena) (al sz : Nat), IsPow2 al → a.cursor ≤ a.limit →
        a.limit + al + sz ≤ 2 ^ 64 →
        (∀ c e a1, allocSlice a al sz = .ok ((c, e), a1) →
            a.cursor ≤ c ∧ c ≤ e ∧ a1.cursor = e ∧ a1.cursor ≤ a1.limit ∧
            a1.limit = a.limit)
        ∧ (a.limit < alignedNat a.cursor al + sz → allocSlice a al sz = .error ()))
    ∧ (∀ (a : Arena) (rs ranges : List (Nat × Nat)) (a2 : Arena),
        a.cursor ≤ a.limit →
        (∀ r ∈ rs, IsPow2 r.1 ∧ a.limit + r.1 + r.2 ≤ 2 ^ 64) →
        allocAll a rs = .ok (ranges, a2) →
        (∀ rg ∈ ranges, rg.1 ≤ rg.2) ∧
        List.Pairwise (fun x y : Nat × Nat => x.2 ≤ y.1) ranges) := by
  constructor
  · intro a al sz hp hc hn
    refine ⟨?_, (allocSlice_characterization a al sz hp hc hn).2⟩
    intro c e a1 h
    obtain ⟨h1, h2, h3, h4⟩ := allocSlice_ok a al sz c e a1 hp hc hn h
    subst h4
    exact ⟨h1, h2, rfl, h3, rfl⟩
  · intro a rs ranges a2 hc hreq h
    obtain ⟨_, _, _, i4, i5⟩ := allocAll_inv rs a ranges a2 hc hreq h
    exact ⟨fun rg hrg => (i4 rg hrg).2.1, i5⟩

/-- Witness for `alloc_slice_c5` at concrete inputs. -/
theorem alloc_slice_c5_witness :
    (IsPow2 4 ∧ (0 : Nat) ≤ 64 ∧ 64 + 4 + 9 ≤ 2 ^ 64) ∧
    List.Pairwise (fun x y : Nat × Nat => x.2 ≤ y.1) [(0, 9), (12, 15)] ∧
    allocSlice ⟨60, 64⟩ 4 9 = .error () := by
  have hpow : IsPow2 4 := ⟨2, by norm_num, rfl⟩
  refine ⟨⟨hpow, by norm_num, by norm_num⟩, ?_, ?_⟩
  · have hreq : ∀ r ∈ [((4 : Nat), (9 : Nat)), (4, 3)],
        IsPow2 r.1 ∧ (Arena.mk 0 64).limit + r.1 + r.2 ≤ 2 ^ 64 := by
      intro r hr
      fin_cases hr <;> exact ⟨hpow, by norm_num⟩
    exact (alloc_slice_c5.2 ⟨0, 64⟩ [(4, 9), (4, 3)] [(0, 9), (12, 15)] ⟨15, 64⟩
      (by decide) hreq rfl).2
  · exact (alloc_slice_c5.1 ⟨60, 64⟩ 4 9 hpow (by decide) (by norm_num)).2 (by decide)

/-- C9 (counterexample): the claim fails in two independent ways. At
`x = 2 ^ 64 - 1` the computation `x + mask` wraps, and `align_up(x, 4)`
returns `0`, which is not `≥ x`. And the alignment `0` is not a power of two,
yet it is NOT rejected by the assertion: `0 - 1` wraps to `usize::MAX`, so
`0 & mask = 0` passes the assert and `align_up(7, 0)` silently returns `0`
instead of panicking. -/
theorem align_up_c9_counterexample :
    (alignUp64 (2 ^ 64 - 1) 4 = .ok 0 ∧ ¬ (2 ^ 64 - 1 ≤ 0)) ∧
    (alignUp64 7 0 = .ok 0 ∧ ¬ ∃ k : Nat, 0 = 2 ^ k) := by
  refine ⟨⟨rfl, by decide⟩, rfl, ?_⟩
  rintro ⟨k, hk⟩
  have := Nat.pos_pow_of_pos k (show 0 < 2 by norm_num)
  omega

/-- C9 (amended): for every `x` with `x + 3 < 2 ^ 64`, `align_up(x, 4)` is the
smallest multiple of 4 that is `≥ x`; for every `x` in the wrap-around zone
`[2 ^ 64 - 3, 2 ^ 64 - 1]` the addition wraps and the result is `0`;
`align_up(·, 4)` is idempotent on all of `usize` (even where the first
application wrapped); every NONZERO non-power-of-two alignment below `2 ^ 64`
is rejected by the assertion; but alignment `0` slips through the assertion
(`0 - 1` wraps, `0 & usize::MAX = 0`) and silently returns `0` for every `x`. -/
theorem align_up_c9_amended :
    (∀ x : Nat, x + 3 < 2 ^ 64 →
        alignUp64 x 4 = .ok (alignedNat x 4) ∧
        4 ∣ alignedNat x 4 ∧ x ≤ alignedNat x 4 ∧ alignedNat x 4 < x + 4)
    ∧ (∀ x : Nat, 2 ^ 64 - 3 ≤ x → x < 2 ^ 64 → alignUp64 x 4 = .ok 0)
    ∧ (∀ x y : Nat, x < 2 ^ 64 → alignUp64 x 4 = .ok y → alignUp64 y 4 = .ok y)
    ∧ (∀ x how : Nat, 0 < how → how < 2 ^ 64 → (¬ ∃ k, how = 2 ^ k) →
        alignUp64 x how = .error ())
    ∧ (∀ x : Nat, alignUp64 x 0 = .ok 0) := by
  refine ⟨?_, ?_, ?_, ?_, ?_⟩
  · intro x hx
    obtain ⟨hge, hlt, hdvd⟩ := alignedNat_bounds x 4 (by norm_num)
    have h := alignUp64_pow2 x 2 (by norm_num) (by omega)
    norm_num at h
    exact ⟨h, hdvd, hge, hlt⟩
  · intro x hge hlt
    have h4 : (2 : Nat) ^ 2 = 4 := by norm_num
    have heval := alignUp64_eval x 2 (by norm_num) hlt
    rw [h4] at heval
    rw [heval]
    have hX : (x + (4 - 1)) % 2 ^ 64 ≤ 2 := by omega
    have hzero : (x + (4 - 1)) % 2 ^ 64 - ((x + (4 - 1)) % 2 ^ 64) % 4 = 0 := by
      omega
    exact congrArg Except.ok hzero
  · intro x y hx h
    have h4 : (2 : Nat) ^ 2 = 4 := by norm_num
    have heval := alignUp64_eval x 2 (by norm_num) hx
    rw [h4] at heval
    rw [heval] at h
    injection h with h1
    have hX : (x + (4 - 1)) % 2 ^ 64 < 2 ^ 64 := Nat.mod_lt _ (by norm_num)
    have hkey := Nat.div_add_mod ((x + (4 - 1)) % 2 ^ 64) 4
    obtain ⟨m, hm⟩ : ∃ m, y = 4 * m := ⟨(x + (4 - 1)) % 2 ^ 64 / 4, by omega⟩
    have h2 := alignUp64_pow2 y 2 (by norm_num) (by omega)
    rw [h4] at h2
    rw [h2]
    have hfin : alignedNat y 4 = y := by
      unfold alignedNat
      omega
    rw [hfin]
  · intro x how hpos hlt hnp
    have hmask : (how + (2 ^ 64 - 1)) % 2 ^ 64 = how - 1 := by omega
    have hne : ¬ how &&& (how - 1) = 0 := fun h0 =>
      hnp (pow2_of_land_pred how hpos h0)
    unfold alignUp64
    simp only [hmask]
    rw [if_neg hne]
  · intro x
    have hmask : (0 + (2 ^ 64 - 1)) % 2 ^ 64 = 2 ^ 64 - 1 := by omega
    unfold alignUp64
    simp only [hmask, Nat.zero_and, Nat.xor_self, Nat.and_zero, if_true]

/-- Witness for `align_up_c9_amended` at concrete inputs: `x = 10` for the
smallest-multiple part, `x = 2 ^ 64 - 2` for the wrap zone, `12` for
idempotence, the non-power-of-two alignment `6` for the assertion, and
`x = 3` for the silent alignment-0 behaviour. -/
theorem align_up_c9_witness :
    alignUp64 10 4 = .ok (alignedNat 10 4) ∧
    alignUp64 (2 ^ 64 - 2) 4 = .ok 0 ∧
    alignUp64 12 4 = .ok 12 ∧
    alignUp64 9 6 = .error () ∧
    alignUp64 3 0 = .ok 0 :=
  ⟨(align_up_c9_amended.1 10 (by norm_num)).1,
   align_up_c9_amended.2.1 (2 ^ 64 - 2) (by norm_num) (by norm_num),
   align_up_c9_amended.2.2.1 10 12 (by norm_num) rfl,
   align_up_c9_amended.2.2.2.1 9 6 (by norm_num) (by norm_num) (by
     rintro ⟨k, hk⟩
     rcases Nat.lt_or_ge k 3 with h | h
     · interval_cases k <;> norm_num at hk
     · have h8 : (2 : Nat) ^ 3 ≤ 2 ^ k := Nat.pow_le_pow_right (by norm_num) h
       omega),
   align_up_c9_amended.2.2.2.2 3⟩

/-! ## `src/fdt.rs` — FDT stream reader and query engine -/

/-- `u32::from_be_bytes` on four bytes. -/
def u32be (b0 b1 b2 b3 : Nat) : Nat :=
  (((b0 % 256) * 256 + b1 % 256) * 256 + b2 % 256) * 256 + b3 % 256

/-- Rust `slice.get(a..b)`: `none` unless `a ≤ b ≤ len`. -/
def sliceGet (l : List Nat) (a b : Nat) : Option (List Nat) :=
  if a ≤ b ∧ b ≤ l.length then some ((l.drop a).take (b - a)) else none

/-- `align_up!(n, 4)` as called by the FDT walker, on a `usize` operand. -/
def align4 (n : Nat) : Nat :=
  ((n + 3) % 2 ^ 64) &&& ((2 ^ 64 - 1) ^^^ 3)

/-- Sanity: `align4` is the success value of the general macro model. -/
theorem align4_alignUp64 (n : Nat) (h : n < 2 ^ 64) :
    alignUp64 n 4 = .ok (align4 n) := by
  rw [show alignUp64 n 4 =
        .ok ((((n % 2 ^ 64) + 3) % 2 ^ 64) &&& ((2 ^ 64 - 1) ^^^ 3)) from rfl,
      align4, Nat.mod_eq_of_lt h]

/-- ASCII bytes of a string literal (every name used below is ASCII, where
this agrees with the UTF-8 representation of the Rust `&str`). -/
def ascii (s : String) : List Nat := s.data.map Char.toNat

/-- `read_from_tape_u32`: the slice indexing `tape[off..off + 4]` panics when
out of bounds; in bounds, the `try_into().ok()` never fails, so the `Option`
result is always `Some`. -/
def readFromTapeU32 (tape : List Nat) (off : Nat) : Exec Nat :=
  match tape.drop off with
  | b0 :: b1 :: b2 :: b3 :: _ => .ok (u32be b0 b1 b2 b3)
  | _ => .error ()

/-- `FdtStream`: tape, strings, cursor offset and inherited cell counts. -/
structure FdtStream where
  tape : List Nat
  strings : List Nat
  off : Nat
  paddrCells : Nat
  psizeCells : Nat
deriving DecidableEq

/-- `FdtStream::next_u32`: `self.tape.get(self.off..self.off + 4)?`, advance
by 4 on success. -/
def nextU32 (s : FdtStream) : Option (Nat × FdtStream) :=
  match s.tape.drop s.off with
  | b0 :: b1 :: b2 :: b3 :: _ =>
    some (u32be b0 b1 b2 b3, { s with off := s.off + 4 })
  | _ => none

/-- Position of the first NUL byte at or after `base` (the scan
`while self.tape.get(end)? != &0 { end += 1 }`, `none` when the tape ends
before a terminator). `l` is the tape suffix starting at `base`. -/
def findNulFrom : List Nat → Nat → Option Nat
  | [], _ => none
  | b :: r, base => if b = 0 then some base else findNulFrom r (base + 1)

/-- UTF-8 continuation byte (`0x80..=0xBF`). -/
def contB (c : Nat) : Bool := decide (0x80 ≤ c ∧ c ≤ 0xBF)

/-- Validity check of `core::str::from_utf8` (RFC 3629 byte ranges). -/
def validUtf8 : List Nat → Bool
  | [] => true
  | b :: rest =>
    if b < 0x80 then validUtf8 rest
    else if 0xC2 ≤ b ∧ b ≤ 0xDF then
      match rest with
      | c1 :: r => contB c1 && validUtf8 r
      | _ => false
    else if b = 0xE0 then
      match rest with
      | c1 :: c2 :: r => decide (0xA0 ≤ c1 ∧ c1 ≤ 0xBF) && contB c2 && validUtf8 r
      | _ => false
    else if (0xE1 ≤ b ∧ b ≤ 0xEC) ∨ b = 0xEE ∨ b = 0xEF then
      match rest with
      | c1 :: c2 :: r => contB c1 && contB c2 && validUtf8 r
      | _ => false
    else if b = 0xED then
      match rest with
      | c1 :: c2 :: r => decide (0x80 ≤ c1 ∧ c1 ≤ 0x9F) && contB c2 && validUtf8 r
      | _ => false
    else if b = 0xF0 then
      match rest with
      | c1 :: c2 :: c3 :: r =>
        decide (0x90 ≤ c1 ∧ c1 ≤ 0xBF) && contB c2 && contB c3 && validUtf8 r
      | _ => false
    else if 0xF1 ≤ b ∧ b ≤ 0xF3 then
      match rest with
      | c1 :: c2 :: c3 :: r => contB c1 && contB c2 && contB c3 && validUtf8 r
      | _ => false
    else if b = 0xF4 then
      match rest with
      | c1 :: c2 :: c3 :: r =>
        decide (0x80 ≤ c1 ∧ c1 ≤ 0x8F) && contB c2 && contB c3 && validUtf8 r
      | _ => false
    else false

/-- `FdtStream::next_str`: NUL-terminated string at the cursor, cursor moved
to the 4-byte-aligned position past the terminator. -/
def nextStr (s : FdtStream) : Option (List Nat × FdtStream) :=
  match findNulFrom (s.tape.drop s.off) s.off with
  | none => none
  | some e =>
    let nm := (s.tape.drop s.off).take (e - s.off)
    if validUtf8 nm then some (nm, { s with off := align4 (e + 1) }) else none

/-- `FdtStream::skip_prop`: read length and name offset, then jump past the
aligned payload. -/
def skipProp (s : FdtStream) : Option FdtStream :=
  match nextU32 s with
  | none => none
  | some (len, s1) =>
    match nextU32 s1 with
    | none => none
    | some (_, s2) => some { s2 with off := align4 (s2.off + len) }

/-- The loop of `FdtStream::node_end_off` (depth starts at 1, `prev` holds the
offset reached at the end of the previous iteration). -/
def nodeEndOffLoop (fuel depth prev : Nat) (s : FdtStream) : Option Nat :=
  if depth = 0 then some prev
  else
    match fuel with
    | 0 => none
    | f + 1 =>
      match nextU32 s with
      | none => none
      | some (token, s1) =>
        if token = 1 then
          match nextStr s1 with
          | none => none
          | some (_, s2) => nodeEndOffLoop f (depth + 1) s2.off s2
        else if token = 2 then nodeEndOffLoop f (depth - 1) s1.off s1
        else if token = 3 then
          match skipProp s1 with
          | none => none
          | some s2 => nodeEndOffLoop f depth s2.off s2
        else if token = 9 then some prev
        else nodeEndOffLoop f depth s1.off s1

/-- `FdtStream::node_end_off` (each iteration consumes at least 4 tape bytes,
so `tape.length + 1` units of fuel can never be exhausted). -/
def nodeEndOff (s : FdtStream) : Option Nat :=
  nodeEndOffLoop (s.tape.length + 1) 1 s.off s

/-- `FdtStream::string_at_off`: NUL-terminated string of the string table at
an absolute offset. -/
def stringAtOff (strs : List Nat) (off : Nat) : Option (List Nat) :=
  match findNulFrom (strs.drop off) off with
  | none => none
  | some e =>
    let nm := (strs.drop off).take (e - off)
    if validUtf8 nm then some nm else none

/-- `FdtNode`: zero-copy handle (name, body slice, string table, inherited
cell counts). -/
structure FdtNode where
  paddrCells : Nat
  psizeCells : Nat
  name : List Nat
  body : List Nat
  strings : List Nat
deriving DecidableEq

/-- `Iterator::next` for `FdtStream`: skips properties, stops at `END` (0x9)
or on a truncated tape, and on `BEGIN_NODE` (0x1) yields the node whose body
is `tape[start..end]` (a panicking index, though unreachable in practice)
while leaving the cursor at the body start — so the iteration continues
*inside* the yielded node and produces all descendants in pre-order. -/
def streamNext (fuel : Nat) (s : FdtStream) : Exec (Option (FdtNode × FdtStream)) :=
  match fuel with
  | 0 => .ok none
  | f + 1 =>
    match nextU32 s with
    | none => .ok none
    | some (token, s1) =>
      if token = 1 then
        match nextStr s1 with
        | none => .ok none
        | some (nm, s2) =>
          match nodeEndOff s2 with
          | none => .ok none
          | some e =>
            match sliceGet s2.tape s2.off e with
            | none => .error ()
            | some body =>
              .ok (some (⟨s2.paddrCells, s2.psizeCells, nm, body, s2.strings⟩, s2))
      else if token = 3 then
        match skipProp s1 with
        | none => .ok none
        | some s2 => streamNext f s2
      else if token = 9 then .ok none
      else streamNext f s1

/-- What a `FdtStreamable` implementor supplies: its own byte range, the
string table, and the inherited `#address-cells` / `#size-cells` values. -/
structure Streamable where
  data : List Nat
  strings : List Nat
  parentAddressCells : Nat
  parentSizeCells : Nat
deriving DecidableEq

/-- The `FdtStreamable` impl for `FdtNode`. -/
def FdtNode.toStreamable (n : FdtNode) : Streamable :=
  ⟨n.body, n.strings, n.paddrCells, n.psizeCells⟩

/-- The `FdtStreamable` impl for the root view `FdtView`:
`parent_address_cells = 2`, `parent_size_cells = 1` (devicetree defaults). -/
def viewStreamable (dtStruct dtStrings : List Nat) : Streamable :=
  ⟨dtStruct, dtStrings, 2, 1⟩

/-- The loop of `shallow_prop_raw`: a raw-offset scan over the entity's own
top-level properties, stopping at the first `BEGIN_NODE`/`END_NODE` token.
The guarded first read never panics, but the length/name-offset reads use the
panicking `read_from_tape_u32`. -/
def shallowLoop (fuel : Nat) (tape strs target : List Nat) (off : Nat) :
    Exec (Option (List Nat)) :=
  match fuel with
  | 0 => .ok none
  | f + 1 =>
    if off + 4 ≤ tape.length then
      match readFromTapeU32 tape off with
      | .error u => .error u
      | .ok token =>
        if token = 3 then
          match readFromTapeU32 tape (off + 4) with
          | .error u => .error u
          | .ok len =>
            match readFromTapeU32 tape (off + 8) with
            | .error u => .error u
            | .ok soff =>
              match stringAtOff strs soff with
              | none => .ok none
              | some nm =>
                if nm = target then .ok (sliceGet tape (off + 12) (off + 12 + len))
                else shallowLoop f tape strs target (align4 (off + 12 + len))
        else if token = 1 ∨ token = 2 then .ok none
        else shallowLoop f tape strs target (off + 4)
    else .ok none

/-- `FdtStreamable::shallow_prop_raw`. -/
def shallowPropRaw (e : Streamable) (target : List Nat) : Exec (Option (List Nat)) :=
  shallowLoop (e.data.length + 1) e.data e.strings target 0

/-- `FdtStreamable::shallow_prop_u32`: `bytes[0..4]` panics when the payload
is shorter than four bytes. -/
def shallowPropU32 (e : Streamable) (target : List Nat) : Exec (Option Nat) :=
  match shallowPropRaw e target with
  | .error u => .error u
  | .ok none => .ok none
  | .ok (some bytes) =>
    match bytes with
    | b0 :: b1 :: b2 :: b3 :: _ => .ok (some (u32be b0 b1 b2 b3))
    | _ => .error ()

/-- `FdtStreamable::address_cells`: the entity's own shallow `#address-cells`
property, falling back to the inherited parent value. -/
def addressCells (e : Streamable) : Exec Nat :=
  match shallowPropU32 e (ascii ("#address-cells")) with
  | .error u => .error u
  | .ok (some v) => .ok v
  | .ok none => .ok e.parentAddressCells

/-- `FdtStreamable::size_cells`. -/
def sizeCells (e : Streamable) : Exec Nat :=
  match shallowPropU32 e (ascii ("#size-cells")) with
  | .error u => .error u
  | .ok (some v) => .ok v
  | .ok none => .ok e.parentSizeCells

/-- `FdtStreamable::stream()`. -/
def streamOf (e : Streamable) : Exec FdtStream :=
  match addressCells e with
  | .error u => .error u
  | .ok a =>
    match sizeCells e with
    | .error u => .error u
    | .ok sz => .ok ⟨e.data, e.strings, 0, a, sz⟩

/-- The loop of `prop_raw` (cursor-based, non-panicking reads). -/
def propLoop (fuel : Nat) (s : FdtStream) (target : List Nat) :
    Exec (Option (List Nat)) :=
  match fuel with
  | 0 => .ok none
  | f + 1 =>
    match nextU32 s with
    | none => .ok none
    | some (token, s1) =>
      if token = 3 then
        match nextU32 s1 with
        | none => .ok none
        | some (len, s2) =>
          match nextU32 s2 with
          | none => .ok none
          | some (soff, s3) =>
            match stringAtOff s3.strings soff with
            | none => .ok none
            | some nm =>
              if nm = target then .ok (sliceGet s3.tape s3.off (s3.off + len))
              else propLoop f { s3 with off := align4 (s3.off + len) } target
      else if token = 1 ∨ token = 2 then .ok none
      else propLoop f s1 target

/-- `FdtStreamable::prop_raw` (constructing the stream resolves the cell
counts through the shallow scan, which may panic). -/
def propRaw (e : Streamable) (target : List Nat) : Exec (Option (List Nat)) :=
  match streamOf e with
  | .error u => .error u
  | .ok s => propLoop (e.data.length + 1) s target

/-- `FdtStreamable::prop_u32`: `bytes[0..4]` panics when the payload is
shorter than four bytes. -/
def propU32 (e : Streamable) (target : List Nat) : Exec (Option Nat) :=
  match propRaw e target with
  | .error u => .error u
  | .ok none => .ok none
  | .ok (some bytes) =>
    match bytes with
    | b0 :: b1 :: b2 :: b3 :: _ => .ok (some (u32be b0 b1 b2 b3))
    | _ => .error ()

/-- `FdtStreamable::prop_str`: `str::from_utf8(bytes).ok()` — invalid UTF-8
yields `None`, never a panic. -/
def propStr (e : Streamable) (target : List Nat) : Exec (Option (List Nat)) :=
  match propRaw e target with
  | .error u => .error u
  | .ok none => .ok none
  | .ok (some bytes) => .ok (if validUtf8 bytes then some bytes else none)

/-- `chunks_exact(4)` + `from_be_bytes`: the complete 4-byte cells of a
payload, the remainder silently dropped. -/
def chunks4 : List Nat → List Nat
  | b0 :: b1 :: b2 :: b3 :: rest => u32be b0 b1 b2 b3 :: chunks4 rest
  | _ => []

/-- `FdtStreamable::prop_cells`. -/
def propCells (e : Streamable) (target : List Nat) : Exec (Option (List Nat)) :=
  match propRaw e target with
  | .error u => .error u
  | .ok none => .ok none
  | .ok (some data) => .ok (some (chunks4 data))

/-- `target.strip_suffix('\0').unwrap_or(target)`. -/
def stripNul (t : List Nat) : List Nat :=
  match t.reverse with
  | 0 :: r => r.reverse
  | _ => t

/-- `Iterator::find` over the node stream with an effectful predicate. -/
def findNodeM (fuel : Nat) (s : FdtStream) (p : FdtNode → Exec Bool) :
    Exec (Option FdtNode) :=
  match fuel with
  | 0 => .ok none
  | f + 1 =>
    match streamNext (s.tape.length + 1) s with
    | .error u => .error u
    | .ok none => .ok none
    | .ok (some (n, s1)) =>
      match p n with
      | .error u => .error u
      | .ok true => .ok (some n)
      | .ok false => findNodeM f s1 p

/-- `FdtStreamable::node_by_name`: first node of the stream whose name equals
the query (with a single trailing NUL stripped from the query). -/
def nodeByName (e : Streamable) (target : List Nat) : Exec (Option FdtNode) :=
  match streamOf e with
  | .error u => .error u
  | .ok s =>
    findNodeM (e.data.length + 1) s (fun n => .ok (decide (n.name = stripNul target)))

/-- `target.find(|c| c != '/')`: byte index of the first non-slash character
(for the valid UTF-8 strings Rust supplies, the byte scan coincides with the
char scan since `/` is ASCII and continuation bytes are `≥ 0x80`). -/
def firstNonSlash : List Nat → Option Nat
  | [] => none
  | b :: r => if b = 0x2F then (firstNonSlash r).map (· + 1) else some 0

/-- `str::split_once('/')`: the parts before and after the first slash. -/
def splitOnceSlash : List Nat → Option (List Nat × List Nat)
  | [] => none
  | b :: r =>
    if b = 0x2F then some ([], r)
    else (splitOnceSlash r).map (fun q => (b :: q.1, q.2))

/-- `str::get(i..)`: `some` iff `i` is a char boundary (`i = 0`, `i = len`,
or the byte at `i` is not a UTF-8 continuation byte). -/
def strGet (t : List Nat) (i : Nat) : Option (List Nat) :=
  if i = 0 then some t
  else
    match t.drop i with
    | [] => if i = t.length then some [] else none
    | b :: _ => if 0x80 ≤ b ∧ b ≤ 0xBF then none else some (t.drop i)

theorem splitOnceSlash_tail_lt (t h tl : List Nat)
    (hs : splitOnceSlash t = some (h, tl)) : tl.length < t.length := by
  induction t generalizing h with
  | nil => exact absurd hs (by simp [splitOnceSlash])
  | cons b r ih =>
    unfold splitOnceSlash at hs
    by_cases hb : b = 0x2F
    · rw [if_pos hb] at hs
      injection hs with hs1
      injection hs1 with hs2 hs3
      subst hs3
      simp
    · rw [if_neg hb] at hs
      cases hr : splitOnceSlash r with
      | none => rw [hr] at hs; exact absurd hs (by simp)
      | some q =>
        rw [hr] at hs
        injection hs with hs1
        have : q.2 = tl := by
          have := congrArg Prod.snd hs1
          simpa using this
        subst this
        have := ih q.1 (by rw [hr])
        simp only [List.length_cons]
        omega

theorem strGet_length_le (t u : List Nat) (i : Nat)
    (hs : strGet t i = some u) : u.length ≤ t.length := by
  unfold strGet at hs
  by_cases hi : i = 0
  · rw [if_pos hi] at hs
    injection hs with hs1
    subst hs1
    exact le_refl _
  · rw [if_neg hi] at hs
    cases hd : t.drop i with
    | nil =>
      rw [hd] at hs
      by_cases hl : i = t.length
      · rw [if_pos hl] at hs
        injection hs with hs1
        subst hs1
        simp
      · rw [if_neg hl] at hs
        exact absurd hs (by simp)
    | cons b r =>
      rw [hd] at hs
      dsimp only at hs
      by_cases hb : 0x80 ≤ b ∧ b ≤ 0xBF
      · rw [if_pos hb] at hs
        exact absurd hs (by simp)
      · rw [if_neg hb] at hs
        injection hs with hs1
        subst hs1
        have hlen : (t.drop i).length ≤ t.length := by
          rw [List.length_drop]
          omega
        rwa [hd] at hlen

/-- `FdtStreamable::node_by_path`: strip leading slashes, resolve the first
segment by `node_by_name`, recurse on the remainder. -/
def nodeByPath (e : Streamable) (target : List Nat) : Exec (Option FdtNode) :=
  match firstNonSlash target with
  | none => .ok none
  | some i =>
    match hs : strGet target i with
    | none => .ok none
    | some t =>
      match hq : splitOnceSlash t with
      | some (head, tail) =>
        match nodeByName e head with
        | .error u => .error u
        | .ok none => .ok none
        | .ok (some n) => nodeByPath n.toStreamable tail
      | none => nodeByName e t
termination_by target.length
decreasing_by
  have h1 := splitOnceSlash_tail_lt t head tail hq
  have h2 := strGet_length_le target t i hs
  omega

/-- The predicate of `node_by_phandle`'s stream search:
`node.prop_u32("phandle").is_some_and(|ph| id.get() == ph)`. -/
def phPred (id : Nat) (n : FdtNode) : Exec Bool :=
  match propU32 n.toStreamable (ascii ("phandle")) with
  | .error u => .error u
  | .ok (some ph) => .ok (decide (id = ph))
  | .ok none => .ok false

/-- The finite node stream, materialized: repeated `Iterator::next` calls
until `None`.  (Materializing before the fold is indistinguishable from the
interleaved iterator fold of the Rust code: the order of effects only decides
*which* panic fires, and the panic value carries no information.) -/
def streamToList (fuel : Nat) (s : FdtStream) : Exec (List FdtNode) :=
  match fuel with
  | 0 => .ok []
  | f + 1 =>
    match streamNext (s.tape.length + 1) s with
    | .error u => .error u
    | .ok none => .ok []
    | .ok (some (n, s1)) =>
      match streamToList f s1 with
      | .error u => .error u
      | .ok l => .ok (n :: l)

/-- `FdtStreamable::node_by_phandle`: a `find` over the (pre-order) node
stream checking each node's `phandle` property, and only if that finds
nothing, a fold over a fresh stream that recurses into every streamed node
eagerly (`acc.or(node.node_by_phandle(id))`). -/
def nodeByPhandle : Nat → Streamable → Nat → Exec (Option FdtNode)
  | 0, _, _ => .ok none
  | f + 1, e, id =>
    match streamOf e with
    | .error u => .error u
    | .ok s =>
      match findNodeM (e.data.length + 1) s (phPred id) with
      | .error u => .error u
      | .ok (some n) => .ok (some n)
      | .ok none =>
        match streamOf e with
        | .error u => .error u
        | .ok s2 =>
          match streamToList (e.data.length + 1) s2 with
          | .error u => .error u
          | .ok nodes =>
            nodes.foldl
              (fun acc n =>
                match acc with
                | .error u => .error u
                | .ok a =>
                  match nodeByPhandle f n.toStreamable id with
                  | .error u => .error u
                  | .ok r => .ok (a.or r))
              (.ok none)

/-- `ccmb64`'s loop: of the `count` iterations, only those with
`count - i <= 2` consume a cell (`ret = (ret << 32) | cells.next()?`), so the
first `min(count, 2)` cells of the iterator are consumed, whatever `count`
is. `left` is the number of remaining iterations, `count - i`. -/
def ccmb64Go : Nat → Nat → List Nat → Option (Nat × List Nat)
  | 0, ret, cells => some (ret, cells)
  | l + 1, ret, cells =>
    if l + 1 ≤ 2 then
      match cells with
      | [] => none
      | c :: rest => ccmb64Go l (((ret <<< 32) % 2 ^ 64) ||| c) rest
    else ccmb64Go l ret cells

/-- `ccmb64(cells, count)`: combine cells into a 64-bit value; `None` for
`count == 0` or when the iterator runs dry. Returns the value and the
remaining (unconsumed) cells of the iterator. -/
def ccmb64 (cells : List Nat) (count : Nat) : Option (Nat × List Nat) :=
  if count = 0 then none else ccmb64Go count 0 cells

/-- `FdtNode::reg_u64`: combine `parent_address_cells()` cells into a base and
`parent_size_cells()` cells into a size from the `reg` property, returning
the half-open range `base..base + size` (the `u64` addition wraps). -/
def regU64 (n : FdtNode) : Exec (Option (Nat × Nat)) :=
  match propCells n.toStreamable (ascii ("reg")) with
  | .error u => .error u
  | .ok none => .ok none
  | .ok (some cells) =>
    match ccmb64 cells n.paddrCells with
    | none => .ok none
    | some (base, rest) =>
      match ccmb64 rest n.psizeCells with
      | none => .ok none
      | some (size, _) => .ok (some (base, (base + size) % 2 ^ 64))

/-! ## Concrete devicetree data used by the claim theorems -/

/-- String table holding just `reg`. -/
def strsReg : List Nat := ascii ("reg") ++ [0]

/-- A node as produced for a parent scope with `#address-cells = 1`,
`#size-cells = 1`, whose body carries `reg = <0x1000 0x100>` (name offset 0 =
`reg`, length 8). -/
def nodeRegExample : FdtNode :=
  ⟨1, 1, ascii ("uart"),
   [0, 0, 0, 3] ++ [0, 0, 0, 8] ++ [0, 0, 0, 0] ++ [0, 0, 0x10, 0] ++ [0, 0, 1, 0],
   strsReg⟩

/-- String table `reg\0#address-cells\0` (offsets 0 and 4). -/
def strsRegAc : List Nat := ascii ("reg") ++ [0] ++ ascii ("#address-cells") ++ [0]

/-- A node whose parent scope declares 3 address cells and 1 size cell, and
whose own body declares `#address-cells = <1>` and
`reg = <1 2 3 4>` (four cells). -/
def nodeRegCx : FdtNode :=
  ⟨3, 1, ascii ("uart"),
   [0, 0, 0, 3] ++ [0, 0, 0, 4] ++ [0, 0, 0, 4] ++ [0, 0, 0, 1]
   ++ [0, 0, 0, 3] ++ [0, 0, 0, 16] ++ [0, 0, 0, 0]
   ++ [0, 0, 0, 1] ++ [0, 0, 0, 2] ++ [0, 0, 0, 3] ++ [0, 0, 0, 4],
   strsRegAc⟩

/-- Struct block: node `b` containing node `uart`, then sibling `uart@1000`,
then `END`. -/
def tapeC2 : List Nat :=
  [0, 0, 0, 1] ++ ascii ("b") ++ [0, 0, 0]
  ++ [0, 0, 0, 1] ++ ascii ("uart") ++ [0, 0, 0, 0]
  ++ [0, 0, 0, 2]
  ++ [0, 0, 0, 2]
  ++ [0, 0, 0, 1] ++ ascii ("uart@1000") ++ [0, 0, 0]
  ++ [0, 0, 0, 2]
  ++ [0, 0, 0, 9]

/-- Root view over `tapeC2`. -/
def entC2 : Streamable := viewStreamable tapeC2 []

/-- Struct block: a single node `uart@1000`, then `END`. -/
def tapeC2b : List Nat :=
  [0, 0, 0, 1] ++ ascii ("uart@1000") ++ [0, 0, 0] ++ [0, 0, 0, 2] ++ [0, 0, 0, 9]

/-- Root view over `tapeC2b`. -/
def entC2b : Streamable := viewStreamable tapeC2b []

/-- The node `entC2b`'s stream yields for `uart@1000` (body = its closing
`END_NODE` token, cell counts inherited from the root defaults). -/
def nodeUart1000 : FdtNode := ⟨2, 1, ascii ("uart@1000"), [0, 0, 0, 2], []⟩

/-- A truncated struct block: a single `PROP` token at the very end of the
tape, with no room for its length field. -/
def entC3 : Streamable := viewStreamable [0, 0, 0, 3] []

/-- Struct block: one property `p` of declared length 2 (payload
`[0xAB, 0xCD]`, padded). -/
def tapeC4 : List Nat := [0, 0, 0, 3] ++ [0, 0, 0, 2] ++ [0, 0, 0, 0] ++ [0xAB, 0xCD, 0, 0]

/-- Root view over `tapeC4` with string table `p\0`. -/
def entC4 : Streamable := viewStreamable tapeC4 (ascii ("p") ++ [0])

/-- Struct block: node `a` containing node `x` with `phandle = <5>`, then a
sibling node `b` with `phandle = <5>`, then `END`.  In document order the
*grandchild* `x` precedes the *immediate child* `b`. -/
def tapeC8 : List Nat :=
  [0, 0, 0, 1] ++ ascii ("a") ++ [0, 0, 0]
  ++ [0, 0, 0, 1] ++ ascii ("x") ++ [0, 0, 0]
  ++ [0, 0, 0, 3] ++ [0, 0, 0, 4] ++ [0, 0, 0, 0] ++ [0, 0, 0, 5]
  ++ [0, 0, 0, 2]
  ++ [0, 0, 0, 2]
  ++ [0, 0, 0, 1] ++ ascii ("b") ++ [0, 0, 0]
  ++ [0, 0, 0, 3] ++ [0, 0, 0, 4] ++ [0, 0, 0, 0] ++ [0, 0, 0, 5]
  ++ [0, 0, 0, 2] ++ [0, 0, 0, 9]

/-- Root view over `tapeC8` with string table `phandle\0`. -/
def entC8 : Streamable := viewStreamable tapeC8 (ascii ("phandle") ++ [0])

/-- Struct block: one property `p` of declared length 6 (payload
`[1, 2, 3, 4, 5, 6]`, padded). -/
def tapeC10 : List Nat := [0, 0, 0, 3] ++ [0, 0, 0, 6] ++ [0, 0, 0, 0] ++ [1, 2, 3, 4, 5, 6, 0, 0]

/-- Root view over `tapeC10` with string table `p\0`. -/
def entC10 : Streamable := viewStreamable tapeC10 (ascii ("p") ++ [0])

/-! ## C3 and C4: the panicking reads -/

/-- C3: on the malformed tape `entC3` (a `PROP` token truncated before its
length field), the shallow property scan — the scan that resolves
`#address-cells` / `#size-cells` — panics in `read_from_tape_u32` via the
out-of-bounds indexing `tape[off..off + 4]` instead of failing locally with
absence.  The claim that every read of the reader and query engine fails
locally on a malformed tape is contradicted by the code. -/
theorem shallow_scan_c3_panics :
    shallowPropRaw entC3 (ascii ("x")) = .error () ∧
    entC3.data = [0, 0, 0, 3] :=
  ⟨rfl, rfl⟩

/-- C4: on `entC4` the property `p` exists with a 2-byte payload (shorter
than the four bytes `prop_u32` projects), and `prop_u32` panics at
`bytes[0..4]` instead of returning absence; `prop_str` on the same
(non-UTF-8) payload does return absence, as the claim demands. -/
theorem prop_u32_c4_panics :
    propU32 entC4 (ascii ("p")) = .error () ∧
    propRaw entC4 (ascii ("p")) = .ok (some [0xAB, 0xCD]) ∧
    propStr entC4 (ascii ("p")) = .ok none :=
  ⟨rfl, rfl, rfl⟩

/-! ## C2: node_by_name -/

/-- C2 (counterexample): on `entC2b` the immediate child literally named
`uart@1000` exists (it is returned for its full name), yet the query `uart`
returns absence — `node_by_name` performs only exact matching, with no
unit-address (`@`) suffix rule. -/
theorem node_by_name_c2_counterexample :
    nodeByName entC2b (ascii ("uart@1000")) = .ok (some nodeUart1000) ∧
    nodeByName entC2b (ascii ("uart")) = .ok none :=
  ⟨rfl, rfl⟩

/-! ## C8: node_by_phandle -/

/-- The string table of `tapeC8` (`phandle\0`). -/
def strsC8 : List Nat := ascii ("phandle") ++ [0]

/-- The stream over the root of `tapeC8`. -/
def s0C8 : FdtStream := ⟨tapeC8, strsC8, 0, 2, 1⟩

/-- The immediate child `a` as streamed from the root of `tapeC8` (its body
holds the whole `x` subtree). -/
def aNodeC8 : FdtNode :=
  ⟨2, 1, ascii ("a"),
   [0, 0, 0, 1, 0x78, 0, 0, 0, 0, 0, 0, 3, 0, 0, 0, 4, 0, 0, 0, 0,
    0, 0, 0, 5, 0, 0, 0, 2, 0, 0, 0, 2],
   strsC8⟩

/-- The grandchild `x` (inside `a`) as streamed from the root of `tapeC8`. -/
def xNodeC8 : FdtNode :=
  ⟨2, 1, ascii ("x"),
   [0, 0, 0, 3, 0, 0, 0, 4, 0, 0, 0, 0, 0, 0, 0, 5, 0, 0, 0, 2],
   strsC8⟩

/-- The immediate child `b` as streamed from the root of `tapeC8`. -/
def bNodeC8 : FdtNode :=
  ⟨2, 1, ascii ("b"),
   [0, 0, 0, 3, 0, 0, 0, 4, 0, 0, 0, 0, 0, 0, 0, 5, 0, 0, 0, 2],
   strsC8⟩

/-- One `find` step: a streamed node failing the predicate is skipped. -/
theorem findNodeM_step_false (f : Nat) (s s1 : FdtStream) (p : FdtNode → Exec Bool)
    (n : FdtNode) (h1 : streamNext (s.tape.length + 1) s = .ok (some (n, s1)))
    (h2 : p n = .ok false) :
    findNodeM (f + 1) s p = findNodeM f s1 p := by
  conv_lhs => rw [findNodeM.eq_def]
  dsimp only
  rw [h1]
  dsimp only
  rw [h2]

/-- One `find` step: a streamed node satisfying the predicate is returned. -/
theorem findNodeM_step_true (f : Nat) (s s1 : FdtStream) (p : FdtNode → Exec Bool)
    (n : FdtNode) (h1 : streamNext (s.tape.length + 1) s = .ok (some (n, s1)))
    (h2 : p n = .ok true) :
    findNodeM (f + 1) s p = .ok (some n) := by
  conv_lhs => rw [findNodeM.eq_def]
  dsimp only
  rw [h1]
  dsimp only
  rw [h2]

/-- If the first pass — the `find` over the entity's node stream — returns a
node, `node_by_phandle` returns it without ever running the fallback fold. -/
theorem nodeByPhandle_find_priority (f : Nat) (e : Streamable) (id : Nat)
    (s : FdtStream) (n : FdtNode) (hs : streamOf e = .ok s)
    (hf : findNodeM (e.data.length + 1) s (phPred id) = .ok (some n)) :
    nodeByPhandle (f + 1) e id = .ok (some n) := by
  unfold nodeByPhandle
  rw [hs]
  dsimp only
  rw [hf]

/-- The stream over the root of `tapeC8` (devicetree default cell counts). -/
theorem streamOf_entC8 : streamOf entC8 = .ok s0C8 := rfl

set_option maxHeartbeats 1000000 in
/-- First stream step from the root of `tapeC8`: the child `a`. -/
theorem streamNext_C8_a :
    streamNext (s0C8.tape.length + 1) s0C8 = .ok (some (aNodeC8, { s0C8 with off := 8 })) := rfl

set_option maxHeartbeats 1000000 in
/-- Second stream step: the cursor stands at `a`'s body, so the *grandchild*
`x` is yielded next (pre-order). -/
theorem streamNext_C8_x :
    streamNext (s0C8.tape.length + 1) { s0C8 with off := 8 } =
      .ok (some (xNodeC8, { s0C8 with off := 16 })) := rfl

set_option maxHeartbeats 1000000 in
/-- From offset 36 (after `a`'s subtree) the stream yields the immediate
child `b`. -/
theorem streamNext_C8_b :
    streamNext (s0C8.tape.length + 1) { s0C8 with off := 36 } =
      .ok (some (bNodeC8, { s0C8 with off := 48 })) := rfl

set_option maxHeartbeats 1000000 in
/-- `a` has no `phandle` property of its own. -/
theorem phPred_C8_a : phPred 5 aNodeC8 = .ok false := rfl

set_option maxHeartbeats 1000000 in
/-- `x` carries `phandle = 5`. -/
theorem phPred_C8_x : phPred 5 xNodeC8 = .ok true := rfl

/-- The pre-order find over `tapeC8` for `phandle = 5` yields the grandchild
`x`, which precedes the immediate child `b` in document order. -/
theorem findNodeM_entC8 :
    findNodeM (entC8.data.length + 1) s0C8 (phPred 5) = .ok (some xNodeC8) := by
  have h : entC8.data.length + 1 = 72 + 1 := rfl
  rw [h]
  rw [findNodeM_step_false 72 s0C8 { s0C8 with off := 8 } (phPred 5) aNodeC8
    streamNext_C8_a phPred_C8_a]
  exact findNodeM_step_true 71 { s0C8 with off := 8 } { s0C8 with off := 16 }
    (phPred 5) xNodeC8 streamNext_C8_x phPred_C8_x

/-- C8 (counterexample): in `tapeC8` the immediate child `b` (streamed at
offset 36, depth 1) carries `phandle = 5`, and so does the grandchild `x`
(depth 2), which lies in an *earlier* subtree.  `node_by_phandle(5)` returns
the deeper node `x`, not the shallower immediate child `b` — the first pass
of the search already streams all descendants in pre-order, so there is no
children-before-grandchildren ordering. -/
theorem node_by_phandle_c8_counterexample :
    nodeByPhandle (tapeC8.length + 1) entC8 5 = .ok (some xNodeC8) ∧
    streamNext (s0C8.tape.length + 1) { s0C8 with off := 36 } =
      .ok (some (bNodeC8, { s0C8 with off := 48 })) ∧
    propU32 bNodeC8.toStreamable (ascii ("phandle")) = .ok (some 5) ∧
    xNodeC8.name ≠ bNodeC8.name :=
  ⟨nodeByPhandle_find_priority 72 entC8 5 s0C8 xNodeC8 streamOf_entC8 findNodeM_entC8,
   streamNext_C8_b, rfl, by decide⟩

/-- C8 (amended): `node_by_phandle(id)` returns the first node of the
entity's node stream — which yields *all descendants in pre-order document
order* — whose `phandle` property equals `id`; only when that single pass
finds nothing does the fallback fold recurse.  Hence, of two nodes with the
same phandle, the one earlier in document order is returned even when it is
the deeper one, as on `tapeC8`. -/
theorem node_by_phandle_c8_amended :
    (∀ (f : Nat) (e : Streamable) (id : Nat) (s : FdtStream) (n : FdtNode),
        streamOf e = .ok s →
        findNodeM (e.data.length + 1) s (phPred id) = .ok (some n) →
        nodeByPhandle (f + 1) e id = .ok (some n))
    ∧ (nodeByPhandle 1 entC8 5 = .ok (some xNodeC8) ∧ xNodeC8.name = ascii ("x")) :=
  ⟨nodeByPhandle_find_priority,
   ⟨nodeByPhandle_find_priority 0 entC8 5 s0C8 xNodeC8 streamOf_entC8 findNodeM_entC8,
    rfl⟩⟩

/-- Witness for `node_by_phandle_c8_amended` at concrete inputs. -/
theorem node_by_phandle_c8_witness :
    streamOf entC8 = .ok s0C8 ∧
    nodeByPhandle 43 entC8 5 = .ok (some xNodeC8) :=
  ⟨streamOf_entC8,
   node_by_phandle_c8_amended.1 42 entC8 5 s0C8 xNodeC8 streamOf_entC8 findNodeM_entC8⟩

/-! ## C1: reg_u64 and ccmb64 -/

/-- The `ccmb64` loop ignores its own iteration count beyond the last two
rounds: with at least two rounds left, nothing is consumed until exactly two
remain. -/
theorem ccmb64Go_ge_two (l : Nat) (hl : 2 ≤ l) (ret : Nat) (cells : List Nat) :
    ccmb64Go l ret cells = ccmb64Go 2 ret cells := by
  induction l with
  | zero => omega
  | succ m ih =>
    by_cases hm : m + 1 = 2
    · rw [hm]
    · have hge : ¬ (m + 1 ≤ 2) := by omega
      conv_lhs => rw [ccmb64Go.eq_def]
      dsimp only
      rw [if_neg hge]
      exact ih (by omega)

/-- C1 (counterexample): `nodeRegCx` sits in a parent scope declaring 3
address cells while its own body declares `#address-cells = 1`, and its
`reg` holds cells `[1, 2, 3, 4]`.  `reg_u64()` returns
`0x100000002..0x100000005` — it consumed the *first two* cells for the base
(`(1 << 32) | 2`) and the *third* for the size, using the parent's count 3
only as a loop bound.  Under the claim's reading with `address_cells() = 1`
(the node's own declaration) the result would be `0x1..0x3`; under its
"all declared cells are consumed, low 64 bits survive" reading it would be
`0x200000003..0x200000007`.  Both differ from the code's result. -/
theorem reg_u64_c1_counterexample :
    regU64 nodeRegCx = .ok (some (0x100000002, 0x100000005)) ∧
    shallowPropU32 nodeRegCx.toStreamable (ascii ("#address-cells")) = .ok (some 1) ∧
    ((0x100000002 : Nat), (0x100000005 : Nat)) ≠ ((0x1 : Nat), (0x3 : Nat)) ∧
    ((0x100000002 : Nat), (0x100000005 : Nat)) ≠ ((0x200000003 : Nat), (0x200000007 : Nat)) :=
  ⟨rfl, rfl, by decide, by decide⟩

/-- C1 (amended): `reg_u64()` reads `reg` as cells and combines them with
`ccmb64` using the *inherited parent-scope* cell counts
(`parent_address_cells()` / `parent_size_cells()`, not the node's own
`#address-cells`).  `ccmb64(cells, count)` consumes only the first
`min(count, 2)` cells of the iterator, combined big-endian
(`ret = (ret << 32) | next`): for `count ≥ 2` the result is
`(c0 << 32) | c1` whatever `count` is, cells beyond the first two are
neither folded nor skipped; it returns absence when `count = 0` or when
fewer than `min(count, 2)` cells are present.  The claim's example holds:
with 1+1 cells and payload `[0x1000, 0x100]` the range is
`0x1000..0x1100`. -/
theorem reg_u64_c1_amended :
    (∀ (cells : List Nat) (count : Nat), 2 ≤ count → ccmb64 cells count = ccmb64 cells 2)
    ∧ (∀ c0 rest, ccmb64 (c0 :: rest) 1 = some (c0, rest))
    ∧ (∀ c0 c1 rest, ccmb64 (c0 :: c1 :: rest) 2 =
        some (((c0 <<< 32) % 2 ^ 64) ||| c1, rest))
    ∧ (∀ cells, ccmb64 cells 0 = none)
    ∧ (∀ count, 1 ≤ count → ccmb64 ([] : List Nat) count = none)
    ∧ (∀ c0 count, 2 ≤ count → ccmb64 [c0] count = none)
    ∧ regU64 nodeRegExample = .ok (some (0x1000, 0x1100)) := by
  refine ⟨?_, ?_, ?_, ?_, ?_, ?_, rfl⟩
  · intro cells count hc
    unfold ccmb64
    rw [if_neg (by omega), if_neg (by omega)]
    exact ccmb64Go_ge_two count hc 0 cells
  · intro c0 rest
    simp [ccmb64, ccmb64Go]
  · intro c0 c1 rest
    simp [ccmb64, ccmb64Go]
  · intro cells
    simp [ccmb64]
  · intro count hc
    unfold ccmb64
    rw [if_neg (by omega)]
    by_cases h2 : 2 ≤ count
    · rw [ccmb64Go_ge_two count h2 0 []]
      rfl
    · have h1 : count = 1 := by omega
      subst h1
      rfl
  · intro c0 count hc
    unfold ccmb64
    rw [if_neg (by omega), ccmb64Go_ge_two count hc 0 [c0]]
    rfl

/-- Witness for `reg_u64_c1_amended` at concrete inputs. -/
theorem reg_u64_c1_witness :
    ((2 : Nat) ≤ 3 ∧ ccmb64 [10, 20, 30] 3 = ccmb64 [10, 20, 30] 2) ∧
    ccmb64 [7] 1 = some (7, []) ∧
    ccmb64 [1, 2, 3] 2 = some (((1 <<< 32) % 2 ^ 64) ||| 2, [3]) ∧
    ((1 : Nat) ≤ 2 ∧ ccmb64 ([] : List Nat) 2 = none) :=
  ⟨⟨by norm_num, reg_u64_c1_amended.1 [10, 20, 30] 3 (by norm_num)⟩,
   reg_u64_c1_amended.2.1 7 [],
   reg_u64_c1_amended.2.2.1 1 2 [3],
   ⟨by norm_num, reg_u64_c1_amended.2.2.2.2.1 2 (by norm_num)⟩⟩

/-! ## C10: prop_cells -/

/-- `chunks4` produces exactly `⌊len / 4⌋` cells. -/
theorem chunks4_length : ∀ l : List Nat, (chunks4 l).length = l.length / 4
  | b0 :: b1 :: b2 :: b3 :: rest => by
    have ih := chunks4_length rest
    simp only [chunks4, List.length_cons]
    omega
  | [] => rfl
  | [_] => by simp [chunks4]
  | [_, _] => by simp [chunks4]
  | [_, _, _] => by simp [chunks4]

/-- `chunks_exact(4)` ignores a trailing remainder shorter than a cell. -/
theorem chunks4_append_rem : ∀ (full rem : List Nat), 4 ∣ full.length →
    rem.length < 4 → chunks4 (full ++ rem) = chunks4 full
  | [], rem, _, hr => by
    cases rem with
    | nil => rfl
    | cons a r1 =>
      cases r1 with
      | nil => rfl
      | cons b r2 =>
        cases r2 with
        | nil => rfl
        | cons c r3 =>
          cases r3 with
          | nil => rfl
          | cons d r4 =>
            simp only [List.length_cons] at hr
            omega
  | b0 :: b1 :: b2 :: b3 :: rest, rem, hd, hr => by
    have hd4 : 4 ∣ rest.length := by
      simp only [List.length_cons] at hd
      omega
    have ih := chunks4_append_rem rest rem hd4 hr
    simp only [List.cons_append, chunks4]
    exact congrArg (fun l => u32be b0 b1 b2 b3 :: l) ih
  | [_], rem, hd, _ => by
    simp only [List.length_cons, List.length_nil] at hd
    omega
  | [_, _], rem, hd, _ => by
    simp only [List.length_cons, List.length_nil] at hd
    omega
  | [_, _, _], rem, hd, _ => by
    simp only [List.length_cons, List.length_nil] at hd
    omega

/-- C10: when the named property exists, `prop_cells` is present (`Some`)
whatever the payload length is — in particular when the length is not a
multiple of 4 — and holds exactly the `⌊len / 4⌋` complete 4-byte big-endian
cells, the trailing remainder bytes silently ignored. -/
theorem prop_cells_c10 :
    (∀ (e : Streamable) (t bytes : List Nat),
        propRaw e t = .ok (some bytes) → bytes.length % 4 ≠ 0 →
        propCells e t = .ok (some (chunks4 bytes)) ∧
        (chunks4 bytes).length = bytes.length / 4)
    ∧ (∀ full rem : List Nat, 4 ∣ full.length → rem.length < 4 →
        chunks4 (full ++ rem) = chunks4 full)
    ∧ (∀ (b0 b1 b2 b3 : Nat) (rest : List Nat),
        chunks4 (b0 :: b1 :: b2 :: b3 :: rest) = u32be b0 b1 b2 b3 :: chunks4 rest) := by
  refine ⟨?_, chunks4_append_rem, fun _ _ _ _ _ => rfl⟩
  intro e t bytes hraw hmod
  constructor
  · unfold propCells
    rw [hraw]
  · exact chunks4_length bytes

/-- Witness for `prop_cells_c10` at a concrete 6-byte payload. -/
theorem prop_cells_c10_witness :
    propRaw entC10 (ascii ("p")) = .ok (some [1, 2, 3, 4, 5, 6]) ∧
    ¬ ([1, 2, 3, 4, 5, 6] : List Nat).length % 4 = 0 ∧
    propCells entC10 (ascii ("p")) = .ok (some (chunks4 [1, 2, 3, 4, 5, 6])) ∧
    (chunks4 [1, 2, 3, 4, 5, 6]).length = ([1, 2, 3, 4, 5, 6] : List Nat).length / 4 :=
  ⟨rfl, by decide,
   (prop_cells_c10.1 entC10 (ascii ("p")) [1, 2, 3, 4, 5, 6] rfl (by decide)).1,
   (prop_cells_c10.1 entC10 (ascii ("p")) [1, 2, 3, 4, 5, 6] rfl (by decide)).2⟩

/-! ## C2 (amended): node_by_name -/

/-- A node returned by the stream `find` satisfies the predicate. -/
theorem findNodeM_pred_of_some (fuel : Nat) (s : FdtStream) (p : FdtNode → Exec Bool)
    (n : FdtNode) (h : findNodeM fuel s p = .ok (some n)) : p n = .ok true := by
  induction fuel generalizing s with
  | zero => exact absurd h (by simp [findNodeM])
  | succ f ih =>
    unfold findNodeM at h
    cases hs : streamNext (s.tape.length + 1) s with
    | error u =>
      rw [hs] at h
      exact absurd h (by simp)
    | ok o =>
      rw [hs] at h
      cases o with
      | none => exact absurd h (by simp)
      | some v =>
        obtain ⟨m, s1⟩ := v
        dsimp only at h
        cases hp : p m with
        | error u =>
          rw [hp] at h
          exact absurd h (by simp)
        | ok b =>
          rw [hp] at h
          cases b with
          | true =>
            dsimp only at h
            injection h with h1
            injection h1 with h2
            subst h2
            exact hp
          | false =>
            dsimp only at h
            exact ih s1 h

/-- Soundness of `node_by_name`: a returned node's name equals the query
(after stripping a trailing NUL from the query). -/
theorem node_by_name_sound (e : Streamable) (t : List Nat) (n : FdtNode)
    (h : nodeByName e t = .ok (some n)) : n.name = stripNul t := by
  unfold nodeByName at h
  cases hs : streamOf e with
  | error u =>
    rw [hs] at h
    exact absurd h (by simp)
  | ok s =>
    rw [hs] at h
    dsimp only at h
    have hp := findNodeM_pred_of_some (e.data.length + 1) s _ n h
    injection hp with h1
    exact of_decide_eq_true h1

/-- The node `entC2`'s stream yields for the grandchild `uart`. -/
def nodeUartC2 : FdtNode := ⟨2, 1, ascii ("uart"), [0, 0, 0, 2], []⟩

/-- C2 (amended): `node_by_name` scans the entity's node stream — *all
descendants in pre-order document order*, not only immediate children — and
returns the first node whose name equals the query *exactly* (one trailing
NUL stripped from the query; no unit-address `@` suffix rule).  On `tapeC2`
the grandchild `uart` (inside `b`) is found from the root, while the query
`uart` does not return the node `uart@1000` of `tapeC2b`. -/
theorem node_by_name_c2_amended :
    (∀ (e : Streamable) (t : List Nat) (n : FdtNode),
        nodeByName e t = .ok (some n) → n.name = stripNul t)
    ∧ (nodeByName entC2 (ascii ("uart")) = .ok (some nodeUartC2) ∧
        nodeUartC2.name = ascii ("uart"))
    ∧ nodeByName entC2b (ascii ("uart")) = .ok none :=
  ⟨node_by_name_sound, ⟨rfl, rfl⟩, rfl⟩

/-- Witness for `node_by_name_c2_amended` at a concrete lookup. -/
theorem node_by_name_c2_witness :
    nodeByName entC2 (ascii ("uart")) = .ok (some nodeUartC2) ∧
    nodeUartC2.name = stripNul (ascii ("uart")) :=
  ⟨rfl, node_by_name_c2_amended.1 entC2 (ascii ("uart")) nodeUartC2 rfl⟩

/-! ## C7: node_by_path -/

/-- The query's first byte is not a UTF-8 continuation byte (true of every
Rust `&str`, whose chars begin at non-continuation bytes). -/
def headNotCont : List Nat → Bool
  | [] => true
  | b :: _ => ! contB b

theorem firstNonSlash_cons_slash (p : List Nat) :
    firstNonSlash (0x2F :: p) = (firstNonSlash p).map (· + 1) := by
  simp [firstNonSlash]

theorem strGet_cons_slash (p : List Nat) (i : Nat) (hh : headNotCont p = true)
    (hi : firstNonSlash p = some i) :
    strGet (0x2F :: p) (i + 1) = strGet p i := by
  by_cases hi0 : i = 0
  · subst hi0
    cases p with
    | nil => simp [firstNonSlash] at hi
    | cons b r =>
      have hb : ¬ (0x80 ≤ b ∧ b ≤ 0xBF) := by
        simp only [headNotCont, contB, Bool.not_eq_true', decide_eq_false_iff_not] at hh
        exact hh
      simp [strGet, hb]
  · unfold strGet
    rw [if_neg (show ¬ (i + 1 = 0) by omega), if_neg hi0, List.drop_succ_cons]
    cases hd : p.drop i with
    | nil =>
      simp only [List.length_cons]
      by_cases hl : i = p.length
      · rw [if_pos (show i + 1 = p.length + 1 by omega), if_pos hl]
      · rw [if_neg (show ¬ (i + 1 = p.length + 1) by omega), if_neg hl]
    | cons b r => rfl

theorem splitOnceSlash_append (a r : List Nat) (h : 0x2F ∉ a) :
    splitOnceSlash (a ++ 0x2F :: r) = some (a, r) := by
  induction a with
  | nil => rfl
  | cons b a1 ih =>
    have hb : ¬ (b = 0x2F) := fun he => h (by simp [he])
    have hrest : 0x2F ∉ a1 := fun hm => h (List.mem_cons_of_mem _ hm)
    show (if b = 0x2F then some ([], a1 ++ 0x2F :: r)
          else (splitOnceSlash (a1 ++ 0x2F :: r)).map (fun q => (b :: q.1, q.2))) = _
    rw [if_neg hb, ih hrest]
    rfl

/-- C7: `node_by_path` strips leading slashes (a leading `/` never changes
the result); on a path `/a/…rest` whose first segment `a` is non-empty and
slash-free, it equals `node_by_name(a)` followed by `node_by_path(rest)` on
the result; and when the first segment does not resolve, the whole lookup
returns absence (never a partial or incorrect node). -/
theorem node_by_path_c7 :
    (∀ (e : Streamable) (p : List Nat), headNotCont p = true →
        nodeByPath e (0x2F :: p) = nodeByPath e p)
    ∧ (∀ (e : Streamable) (a r : List Nat), a ≠ [] → 0x2F ∉ a →
        headNotCont a = true →
        nodeByPath e (0x2F :: (a ++ 0x2F :: r)) =
          (match nodeByName e a with
           | .error u => .error u
           | .ok none => .ok none
           | .ok (some n) => nodeByPath n.toStreamable r))
    ∧ (∀ (e : Streamable) (a r : List Nat), a ≠ [] → 0x2F ∉ a →
        headNotCont a = true → nodeByName e a = .ok none →
        nodeByPath e (0x2F :: (a ++ 0x2F :: r)) = .ok none) := by
  have part1 : ∀ (e : Streamable) (p : List Nat), headNotCont p = true →
      nodeByPath e (0x2F :: p) = nodeByPath e p := by
    intro e p hh
    conv_lhs => rw [nodeByPath.eq_def]
    conv_rhs => rw [nodeByPath.eq_def]
    rw [firstNonSlash_cons_slash]
    cases hfp : firstNonSlash p with
    | none => rfl
    | some i =>
      simp only [Option.map_some']
      rw [strGet_cons_slash p i hh hfp]
  have part2 : ∀ (e : Streamable) (a r : List Nat), a ≠ [] → 0x2F ∉ a →
      headNotCont a = true →
      nodeByPath e (0x2F :: (a ++ 0x2F :: r)) =
        (match nodeByName e a with
         | .error u => .error u
         | .ok none => .ok none
         | .ok (some n) => nodeByPath n.toStreamable r) := by
    intro e a r ha hs hh
    obtain ⟨b, a1, rfl⟩ : ∃ b a1, a = b :: a1 := by
      cases a with
      | nil => exact absurd rfl ha
      | cons b a1 => exact ⟨b, a1, rfl⟩
    have hb : ¬ (b = 0x2F) := fun he => hs (by simp [he])
    have hbc : ¬ (0x80 ≤ b ∧ b ≤ 0xBF) := by
      simp only [headNotCont, contB, Bool.not_eq_true', decide_eq_false_iff_not] at hh
      exact hh
    conv_lhs => rw [nodeByPath.eq_def]
    have h1 : firstNonSlash (0x2F :: ((b :: a1) ++ 0x2F :: r)) = some 1 := by
      simp [firstNonSlash, hb]
    rw [h1]
    dsimp only
    have h2 : strGet (0x2F :: ((b :: a1) ++ 0x2F :: r)) 1 =
        some ((b :: a1) ++ 0x2F :: r) := by
      simp [strGet, hbc]
    rw [h2]
    dsimp only
    rw [splitOnceSlash_append (b :: a1) r hs]
  refine ⟨part1, part2, ?_⟩
  intro e a r ha hs hh hn
  rw [part2 e a r ha hs hh, hn]

/-- Witness for `node_by_path_c7` at a concrete lookup on `tapeC2`. -/
theorem node_by_path_c7_witness :
    (headNotCont (ascii ("b") ++ 0x2F :: ascii ("uart")) = true ∧
        ascii ("b") ≠ [] ∧ 0x2F ∉ ascii ("b") ∧ headNotCont (ascii ("b")) = true) ∧
    nodeByPath entC2 (0x2F :: (ascii ("b") ++ 0x2F :: ascii ("uart"))) =
      (match nodeByName entC2 (ascii ("b")) with
       | .error u => .error u
       | .ok none => .ok none
       | .ok (some n) => nodeByPath n.toStreamable (ascii ("uart"))) :=
  ⟨⟨by decide, by decide, by decide, by decide⟩,
   node_by_path_c7.2.1 entC2 (ascii ("b")) (ascii ("uart"))
     (by decide) (by decide) (by decide)⟩
